import Mathlib

/-!
Verification of the QuickDefine dictionary-extension core: a shallow
embedding, in Lean, of the JavaScript source (SimpleCache, DictionaryDB,
fetchWithTimeout / fetchFromAPI, DictionaryManager.getDefinition,
DictionaryManager.preloadDictionary, and the background storeBatch), with
theorems checking the specified behaviour of each component.

Modelling conventions:
- JS `Map` is modelled as an association list in iteration (insertion)
  order, oldest entry first, with unique keys maintained by the operations.
- Timestamps (`Date.now()`) are `Nat` milliseconds passed in explicitly.
- JS strings are Lean `String`; `trim`/`toLowerCase` are modelled for the
  ASCII range (the repository's keys are dictionary words).
- Asynchronous code is modelled by explicit state passing; the outcome of
  each external event (fetch attempt, IndexedDB request) is supplied by an
  environment argument.
-/

namespace QuickDefine

/-! ### Model of the JS string operations used for key normalization -/

/-- ASCII lower-casing of one character, modelling JS `toLowerCase` on the
character range the repository's keys use. -/
def charToLower (c : Char) : Char :=
  if 65 ≤ c.toNat ∧ c.toNat ≤ 90 then Char.ofNat (c.toNat + 32) else c

/-- Whitespace test used by the model of JS `trim` (ASCII whitespace:
space, tab, newline, carriage return). -/
def jsWS (c : Char) : Bool :=
  c.toNat = 32 || c.toNat = 9 || c.toNat = 10 || c.toNat = 13

/-- Model of JS `String.prototype.trim` on the character list: remove
leading and trailing whitespace. -/
def listTrim (l : List Char) : List Char :=
  List.rdropWhile jsWS (l.dropWhile jsWS)

/-- Model of JS `String.prototype.trim`. -/
def jsTrim (s : String) : String := ⟨listTrim s.data⟩

/-- Model of JS `String.prototype.toLowerCase`. -/
def jsToLower (s : String) : String := ⟨s.data.map charToLower⟩

/-- The key normalization `word.trim().toLowerCase()` applied throughout
the source before cache and store access. -/
def normalizeKey (s : String) : String := jsToLower (jsTrim s)

theorem toNat_ofNat_of_valid {n : Nat} (h : n < 55296) : (Char.ofNat n).toNat = n := by
  rw [Char.ofNat, dif_pos (Or.inl h)]
  rfl

theorem toNat_charToLower (c : Char) :
    (charToLower c).toNat = if 65 ≤ c.toNat ∧ c.toNat ≤ 90 then c.toNat + 32 else c.toNat := by
  unfold charToLower
  split
  · next h => exact toNat_ofNat_of_valid (by omega)
  · rfl

theorem charToLower_idem (c : Char) : charToLower (charToLower c) = charToLower c := by
  unfold charToLower
  split
  · next h =>
    rw [if_neg]
    rw [toNat_ofNat_of_valid (by omega)]
    omega
  · rfl

theorem jsWS_charToLower (c : Char) : jsWS (charToLower c) = jsWS c := by
  have h := toNat_charToLower c
  unfold jsWS
  rw [h]
  split
  · next hr =>
    rw [Bool.eq_iff_iff]
    simp only [Bool.or_eq_true, decide_eq_true_eq]
    omega
  · rfl

theorem listTrim_idem (l : List Char) : listTrim (listTrim l) = listTrim l := by
  unfold listTrim
  have hpre : List.rdropWhile jsWS (l.dropWhile jsWS) <+: l.dropWhile jsWS :=
    List.rdropWhile_prefix _ _
  have hdw : (List.rdropWhile jsWS (l.dropWhile jsWS)).dropWhile jsWS
      = List.rdropWhile jsWS (l.dropWhile jsWS) := by
    rw [List.dropWhile_eq_self_iff]
    intro hl
    have hlen : 0 < (l.dropWhile jsWS).length :=
      Nat.lt_of_lt_of_le hl hpre.length_le
    have h0 := hpre.getElem hl
    have hnot := List.dropWhile_get_zero_not jsWS l hlen
    simp only [List.get_eq_getElem] at hnot ⊢
    rw [h0]
    exact hnot
  rw [hdw, List.rdropWhile_idempotent]

theorem dropWhile_map_charToLower (l : List Char) :
    (l.map charToLower).dropWhile jsWS = (l.dropWhile jsWS).map charToLower := by
  have hfun : (jsWS ∘ charToLower) = jsWS := funext jsWS_charToLower
  rw [List.dropWhile_map, hfun]

theorem rdropWhile_map_charToLower (l : List Char) :
    List.rdropWhile jsWS (l.map charToLower)
      = (List.rdropWhile jsWS l).map charToLower := by
  unfold List.rdropWhile
  rw [← List.map_reverse, dropWhile_map_charToLower, List.map_reverse]

theorem listTrim_map_charToLower (l : List Char) :
    listTrim (l.map charToLower) = (listTrim l).map charToLower := by
  unfold listTrim
  rw [dropWhile_map_charToLower, rdropWhile_map_charToLower]

/-- Normalization is idempotent: normalizing an already normalized key
changes nothing. -/
theorem normalizeKey_idem (s : String) :
    normalizeKey (normalizeKey s) = normalizeKey s := by
  unfold normalizeKey jsToLower jsTrim
  simp only
  rw [listTrim_map_charToLower, listTrim_idem]
  congr 1
  rw [List.map_map]
  apply List.map_congr_left
  intro c _
  exact charToLower_idem c

/-! ### Model of the JS `Map` used by `SimpleCache`

A JS `Map` iterates in insertion order and `Map.set` on an existing key
keeps the key's position.  We model it as an association list, oldest
entry first. -/

section JSMap

variable {K : Type} {α : Type} [DecidableEq K]

/-- JS `map.get(k)`: value at the first (only) occurrence of `k`. -/
def mapGet (k : K) : List (K × α) → Option α
  | [] => none
  | (k', v) :: rest => if k' = k then some v else mapGet k rest

/-- JS `map.delete(k)`: remove the binding for `k` (no-op when absent). -/
def mapDelete (k : K) (l : List (K × α)) : List (K × α) :=
  l.filter (fun p => p.1 ≠ k)

/-- JS `map.set(k, v)`: overwrite in place when `k` is present, otherwise
append at the end of the iteration order. -/
def mapSet (k : K) (v : α) : List (K × α) → List (K × α)
  | [] => [(k, v)]
  | (k', v') :: rest => if k' = k then (k, v) :: rest else (k', v') :: mapSet k v rest

theorem mapGet_eq_none_of_not_mem {k : K} {l : List (K × α)}
    (h : k ∉ l.map Prod.fst) : mapGet k l = none := by
  induction l with
  | nil => rfl
  | cons p rest ih =>
    simp only [List.map_cons, List.mem_cons] at h
    push_neg at h
    unfold mapGet
    rw [if_neg (by exact fun hc => h.1 hc.symm)]
    exact ih h.2

theorem mapGet_mem {k : K} {v : α} {l : List (K × α)}
    (h : mapGet k l = some v) : (k, v) ∈ l := by
  induction l with
  | nil => simp [mapGet] at h
  | cons p rest ih =>
    obtain ⟨k', v'⟩ := p
    unfold mapGet at h
    split at h
    · next he =>
      obtain ⟨rfl⟩ := Option.some.injEq _ _ ▸ h
      subst he
      exact List.mem_cons_self _ _
    · exact List.mem_cons_of_mem _ (ih h)

theorem mapGet_eq_some_of_mem_nodup {k : K} {v : α} {l : List (K × α)}
    (hnd : (l.map Prod.fst).Nodup) (h : (k, v) ∈ l) : mapGet k l = some v := by
  induction l with
  | nil => simp at h
  | cons p rest ih =>
    obtain ⟨k', v'⟩ := p
    simp only [List.map_cons, List.nodup_cons] at hnd
    rcases List.mem_cons.mp h with h1 | h2
    · obtain ⟨rfl, rfl⟩ := Prod.mk.injEq _ _ _ _ ▸ h1
      simp [mapGet]
    · unfold mapGet
      rw [if_neg, ih hnd.2 h2]
      intro hc
      subst hc
      exact hnd.1 (List.mem_map_of_mem Prod.fst h2)

theorem mapSet_eq_append_of_not_mem {k : K} {v : α} {l : List (K × α)}
    (h : k ∉ l.map Prod.fst) : mapSet k v l = l ++ [(k, v)] := by
  induction l with
  | nil => rfl
  | cons p rest ih =>
    obtain ⟨k', v'⟩ := p
    simp only [List.map_cons, List.mem_cons] at h
    push_neg at h
    unfold mapSet
    rw [if_neg (Ne.symm h.1), ih h.2]
    rfl

theorem map_fst_mapSet_of_mem {k : K} {v : α} {l : List (K × α)}
    (h : k ∈ l.map Prod.fst) : (mapSet k v l).map Prod.fst = l.map Prod.fst := by
  induction l with
  | nil => simp at h
  | cons p rest ih =>
    obtain ⟨k', v'⟩ := p
    unfold mapSet
    by_cases he : k' = k
    · rw [if_pos he]
      simp [he]
    · rw [if_neg he]
      simp only [List.map_cons, List.mem_cons] at h
      rcases h with h1 | h2
      · exact absurd h1.symm he
      · simp [ih h2]

theorem mapGet_mapSet_self (k : K) (v : α) (l : List (K × α)) :
    mapGet k (mapSet k v l) = some v := by
  induction l with
  | nil => simp [mapSet, mapGet]
  | cons p rest ih =>
    obtain ⟨k', v'⟩ := p
    unfold mapSet
    by_cases he : k' = k
    · rw [if_pos he]
      simp [mapGet]
    · rw [if_neg he]
      unfold mapGet
      rw [if_neg he]
      exact ih

theorem mem_mapSet {k : K} {v : α} {l : List (K × α)} {x : K × α}
    (h : x ∈ mapSet k v l) : x ∈ l ∨ x = (k, v) := by
  induction l with
  | nil => simp [mapSet] at h; right; exact h
  | cons p rest ih =>
    obtain ⟨k', v'⟩ := p
    unfold mapSet at h
    split at h
    · rcases List.mem_cons.mp h with h1 | h2
      · right; exact h1
      · left; exact List.mem_cons_of_mem _ h2
    · rcases List.mem_cons.mp h with h1 | h2
      · left; rw [h1]; exact List.mem_cons_self _ _
      · rcases ih h2 with h3 | h3
        · left; exact List.mem_cons_of_mem _ h3
        · right; exact h3

theorem mem_of_mem_mapDelete {k : K} {l : List (K × α)} {x : K × α}
    (h : x ∈ mapDelete k l) : x ∈ l :=
  List.mem_of_mem_filter h

theorem map_fst_mapDelete_sublist (k : K) (l : List (K × α)) :
    ((mapDelete k l).map Prod.fst).Sublist (l.map Prod.fst) :=
  List.Sublist.map Prod.fst (List.filter_sublist l)

theorem nodup_mapDelete {k : K} {l : List (K × α)}
    (h : (l.map Prod.fst).Nodup) : ((mapDelete k l).map Prod.fst).Nodup :=
  (map_fst_mapDelete_sublist k l).nodup h

theorem nodup_mapSet {k : K} {v : α} {l : List (K × α)}
    (h : (l.map Prod.fst).Nodup) : ((mapSet k v l).map Prod.fst).Nodup := by
  by_cases hm : k ∈ l.map Prod.fst
  · rw [map_fst_mapSet_of_mem hm]
    exact h
  · rw [mapSet_eq_append_of_not_mem hm]
    simp only [List.map_append, List.map_cons, List.map_nil]
    rw [List.nodup_append]
    exact ⟨h, List.nodup_singleton _, by simpa using hm⟩

theorem mapDelete_cons_head_of_nodup {k : K} {v : α} {rest : List (K × α)}
    (hnd : (((k, v) :: rest).map Prod.fst).Nodup) :
    mapDelete k ((k, v) :: rest) = rest := by
  simp only [List.map_cons, List.nodup_cons] at hnd
  unfold mapDelete
  rw [List.filter_cons_of_neg (by simp)]
  apply List.filter_eq_self.mpr
  intro p hp
  simp only [ne_eq, decide_eq_true_eq]
  intro hc
  exact hnd.1 (hc ▸ List.mem_map_of_mem Prod.fst hp)

theorem not_mem_map_fst_mapDelete (k : K) (l : List (K × α)) :
    k ∉ (mapDelete k l).map Prod.fst := by
  intro h
  obtain ⟨p, hp, hfst⟩ := List.mem_map.mp h
  have := List.of_mem_filter hp
  simp only [ne_eq, decide_eq_true_eq] at this
  exact this hfst

theorem mapGet_mapDelete_self (k : K) (l : List (K × α)) :
    mapGet k (mapDelete k l) = none :=
  mapGet_eq_none_of_not_mem (not_mem_map_fst_mapDelete k l)

theorem map_fst_mapDelete (k : K) (l : List (K × α)) :
    (mapDelete k l).map Prod.fst = (l.map Prod.fst).filter (fun x => x ≠ k) := by
  induction l with
  | nil => rfl
  | cons p rest ih =>
    obtain ⟨k', v'⟩ := p
    unfold mapDelete at ih ⊢
    by_cases he : k' = k
    · subst he
      simp
      simpa using ih
    · simp [he]
      simpa using ih

end JSMap

/-! ### SimpleCache (utils.js): in-memory LRU cache with TTL -/

/-- The value stored per cache key: `{ value, timestamp }` (the
timestamp is `Date.now()` at insertion). -/
structure CacheItem (V : Type) where
  value : V
  timestamp : Nat
deriving Repr, DecidableEq

/-- State of a `SimpleCache(maxSize, ttl)`: the configuration plus the
backing `Map`, modelled as an insertion-ordered association list. -/
structure SimpleCache (K V : Type) where
  maxSize : Nat
  ttl : Nat
  cache : List (K × CacheItem V)
deriving Repr, DecidableEq

variable {K V : Type} [DecidableEq K]

/-- `SimpleCache.get(key)` at time `now`: absent keys give `null`; an
entry older than `ttl` is deleted lazily and gives `null`; otherwise the
entry is promoted to most-recently-used (delete then re-insert, keeping
its original timestamp) and its value returned.  Returns the value and
the updated cache state. -/
def SimpleCache.get (c : SimpleCache K V) (now : Nat) (key : K) :
    Option V × SimpleCache K V :=
  match mapGet key c.cache with
  | none => (none, c)
  | some item =>
    if c.ttl < now - item.timestamp then
      (none, { c with cache := mapDelete key c.cache })
    else
      (some item.value, { c with cache := mapSet key item (mapDelete key c.cache) })

/-- `SimpleCache.set(key, value)` at time `now`: when the map already
holds `maxSize` or more entries, the first key in iteration order is
deleted (even if `key` itself is already present); then the entry is
written with a fresh timestamp. -/
def SimpleCache.set (c : SimpleCache K V) (now : Nat) (key : K) (value : V) :
    SimpleCache K V :=
  let cache1 :=
    if c.maxSize ≤ c.cache.length then
      match c.cache with
      | [] => c.cache
      | (k0, _) :: _ => mapDelete k0 c.cache
    else c.cache
  { c with cache := mapSet key ⟨value, now⟩ cache1 }

/-- `SimpleCache.clear()`. -/
def SimpleCache.clear (c : SimpleCache K V) : SimpleCache K V :=
  { c with cache := [] }

/-- `SimpleCache.size()`. -/
def SimpleCache.size (c : SimpleCache K V) : Nat :=
  c.cache.length

/-- A fresh cache as built by the constructor. -/
def SimpleCache.empty (maxSize ttl : Nat) : SimpleCache K V :=
  ⟨maxSize, ttl, []⟩

theorem SimpleCache.nodup_get {c : SimpleCache K V} {now : Nat} {key : K}
    (h : (c.cache.map Prod.fst).Nodup) :
    (((c.get now key).2).cache.map Prod.fst).Nodup := by
  unfold SimpleCache.get
  split
  · exact h
  · split
    · exact nodup_mapDelete h
    · exact nodup_mapSet (nodup_mapDelete h)

theorem SimpleCache.nodup_set {c : SimpleCache K V} {now : Nat} {key : K} {v : V}
    (h : (c.cache.map Prod.fst).Nodup) :
    ((c.set now key v).cache.map Prod.fst).Nodup := by
  unfold SimpleCache.set
  simp only
  apply nodup_mapSet
  split
  · split
    · exact h
    · exact nodup_mapDelete h
  · exact h

/-- Entries in the cache after a `get` were already present before it:
`get` never creates an entry and never changes a stored item (promotion
re-inserts the very same item, timestamp included). -/
theorem SimpleCache.mem_of_mem_get {c : SimpleCache K V} {now : Nat} {key : K}
    {x : K × CacheItem V} (h : x ∈ ((c.get now key).2).cache) : x ∈ c.cache := by
  unfold SimpleCache.get at h
  split at h
  · exact h
  · next item hitem =>
    split at h
    · exact mem_of_mem_mapDelete h
    · simp only at h
      rcases mem_mapSet h with h1 | h1
      · exact mem_of_mem_mapDelete h1
      · rw [h1]
        exact mapGet_mem hitem

/-- The entry written by `set` is retrievable: after `set key v` at time
`now`, the map holds exactly `⟨v, now⟩` at `key`. -/
theorem SimpleCache.mapGet_set_self (c : SimpleCache K V) (now : Nat) (key : K) (v : V) :
    mapGet key (c.set now key v).cache = some ⟨v, now⟩ := by
  unfold SimpleCache.set
  simp only
  exact mapGet_mapSet_self key (CacheItem.mk v now) _

theorem SimpleCache.ttl_get (c : SimpleCache K V) (now : Nat) (key : K) :
    ((c.get now key).2).ttl = c.ttl := by
  unfold SimpleCache.get
  split
  · rfl
  · split <;> rfl

theorem SimpleCache.ttl_set (c : SimpleCache K V) (now : Nat) (key : K) (v : V) :
    (c.set now key v).ttl = c.ttl := rfl

/-- Replaying a list of `(time, key)` accesses against the cache
(`utils.js` only mutates the cache through `get`/`set`; this folds the
`get`s of an access pattern). -/
def applyGets (c : SimpleCache K V) (gets : List (Nat × K)) : SimpleCache K V :=
  gets.foldl (fun c g => (c.get g.1 g.2).2) c

theorem applyGets_ttl (c : SimpleCache K V) (gets : List (Nat × K)) :
    (applyGets c gets).ttl = c.ttl := by
  induction gets generalizing c with
  | nil => rfl
  | cons g rest ih =>
    unfold applyGets at ih ⊢
    rw [List.foldl_cons, ih, SimpleCache.ttl_get]

theorem applyGets_mem {c : SimpleCache K V} {gets : List (Nat × K)}
    {x : K × CacheItem V} (h : x ∈ (applyGets c gets).cache) : x ∈ c.cache := by
  induction gets generalizing c with
  | nil => exact h
  | cons g rest ih =>
    unfold applyGets at h ih
    rw [List.foldl_cons] at h
    exact SimpleCache.mem_of_mem_get (ih h)

theorem applyGets_nodup {c : SimpleCache K V} {gets : List (Nat × K)}
    (h : (c.cache.map Prod.fst).Nodup) :
    (((applyGets c gets)).cache.map Prod.fst).Nodup := by
  induction gets generalizing c with
  | nil => exact h
  | cons g rest ih =>
    unfold applyGets at ih ⊢
    rw [List.foldl_cons]
    exact ih (SimpleCache.nodup_get h)

/-! ### DictionaryDB (db.js): IndexedDB store keyed by `word` -/

/-- One stored record: `{ ..., word, data, timestamp }` as written by
`DictionaryDB.set` / `setBatch` (keyPath `word`). -/
structure StoreRecord (V : Type) where
  word : String
  data : V
  timestamp : Nat
deriving Repr, DecidableEq

/-- IndexedDB `store.put(record)` with keyPath `word`: replace the record
whose key equals `record.word`, or insert it.  Physical order is
irrelevant to keyed access; the model removes any record with the same
key and appends. -/
def storePut (store : List (StoreRecord V)) (w : String) (d : V) (now : Nat) :
    List (StoreRecord V) :=
  store.filter (fun r => r.word ≠ w) ++ [⟨w, d, now⟩]

/-- IndexedDB `store.get(key)`: the record stored under exactly `key`. -/
def storeFind (w : String) : List (StoreRecord V) → Option (StoreRecord V)
  | [] => none
  | r :: rest => if r.word = w then some r else storeFind w rest

/-- `DictionaryDB.get(word)`: normalizes the key, then a point lookup. -/
def DictionaryDB.get (store : List (StoreRecord V)) (word : String) :
    Option (StoreRecord V) :=
  storeFind (normalizeKey word) store

/-- `DictionaryDB.set(entry)` at time `now`: throws when `entry.word` is
falsy (the empty string); otherwise stores the record under the
normalized key with a fresh timestamp. -/
def DictionaryDB.set (store : List (StoreRecord V)) (entry : StoreRecord V)
    (now : Nat) : Except String (List (StoreRecord V)) :=
  if entry.word = "" then
    Except.error "Dictionary entry must have a word property"
  else
    Except.ok (storePut store (normalizeKey entry.word) entry.data now)

/-- `DictionaryDB.count()`. -/
def DictionaryDB.count (store : List (StoreRecord V)) : Nat :=
  store.length

/-- `DictionaryDB.setBatch(entries)` on the success path: entries whose
`word` is falsy are skipped, the rest are put under their normalized
keys (each batch entry carries a key and a data value). -/
def setBatchPure (store : List (StoreRecord V)) (batch : List (String × V))
    (now : Nat) : List (StoreRecord V) :=
  batch.foldl
    (fun s e => if e.1 = "" then s else storePut s (normalizeKey e.1) e.2 now) store

theorem storeFind_storePut_self (store : List (StoreRecord V)) (w : String)
    (d : V) (now : Nat) : storeFind w (storePut store w d now) = some ⟨w, d, now⟩ := by
  unfold storePut
  induction store with
  | nil => simp [storeFind]
  | cons r rest ih =>
    rw [List.filter_cons]
    split
    · next hr =>
      simp only [ne_eq, decide_eq_true_eq] at hr
      rw [List.cons_append]
      simp only [storeFind]
      rw [if_neg hr]
      exact ih
    · next hr =>
      exact ih

/-- Every record in the store after a `storePut` is either an old record
(with a key different from the written one) or the freshly written one. -/
theorem mem_storePut {store : List (StoreRecord V)} {w : String} {d : V}
    {now : Nat} {r : StoreRecord V} (h : r ∈ storePut store w d now) :
    (r ∈ store ∧ r.word ≠ w) ∨ r = ⟨w, d, now⟩ := by
  unfold storePut at h
  rcases List.mem_append.mp h with h1 | h1
  · left
    refine ⟨List.mem_of_mem_filter h1, ?_⟩
    have := List.of_mem_filter h1
    simpa using this
  · right
    simpa using h1

/-- The store invariant maintained by every write path: each stored key
is already normalized, and keys are pairwise distinct. -/
def StoreInv (store : List (StoreRecord V)) : Prop :=
  (∀ r ∈ store, normalizeKey r.word = r.word) ∧
    (store.map StoreRecord.word).Nodup

theorem storeInv_nil : StoreInv ([] : List (StoreRecord V)) := by
  constructor
  · intro r hr
    simp at hr
  · simp

theorem storeInv_storePut {store : List (StoreRecord V)} {w : String} {d : V}
    {now : Nat} (hInv : StoreInv store) (hw : normalizeKey w = w) :
    StoreInv (storePut store w d now) := by
  constructor
  · intro r hr
    rcases mem_storePut hr with ⟨h1, _⟩ | h1
    · exact hInv.1 r h1
    · rw [h1]
      exact hw
  · unfold storePut
    simp only [List.map_append, List.map_cons, List.map_nil]
    rw [List.nodup_append]
    refine ⟨?_, List.nodup_singleton _, ?_⟩
    · exact ((List.filter_sublist store).map StoreRecord.word).nodup hInv.2
    · intro a ha
      simp only [List.mem_map] at ha
      obtain ⟨r, hr, rfl⟩ := ha
      have := List.of_mem_filter hr
      simp only [ne_eq, decide_eq_true_eq] at this
      simpa using fun hc => this hc

/-- An arbitrary history of `DictionaryDB.set` calls (a thrown `set` —
empty word — leaves the store unchanged). -/
def runSets (ops : List (StoreRecord V × Nat)) (store : List (StoreRecord V)) :
    List (StoreRecord V) :=
  ops.foldl
    (fun s p =>
      match DictionaryDB.set s p.1 p.2 with
      | Except.ok s' => s'
      | Except.error _ => s) store

theorem storeInv_runSets {store : List (StoreRecord V)}
    (hInv : StoreInv store) (ops : List (StoreRecord V × Nat)) :
    StoreInv (runSets ops store) := by
  induction ops generalizing store with
  | nil => exact hInv
  | cons op rest ih =>
    unfold runSets at ih ⊢
    rw [List.foldl_cons]
    apply ih
    split
    · next s' hs =>
      unfold DictionaryDB.set at hs
      split at hs
      · simp at hs
      · rw [Except.ok.injEq] at hs
        subst hs
        exact storeInv_storePut hInv (normalizeKey_idem op.1.word)
    · exact hInv

/-- Two distinct records in a store satisfying the invariant never share
a word. -/
theorem word_ne_of_ne_of_storeInv {store : List (StoreRecord V)}
    (hInv : StoreInv store) {r1 r2 : StoreRecord V} (h1 : r1 ∈ store)
    (h2 : r2 ∈ store) (hne : r1 ≠ r2) : r1.word ≠ r2.word := by
  intro hc
  apply hne
  have hnd := hInv.2
  clear hInv
  induction store with
  | nil => simp at h1
  | cons r rest ih =>
    simp only [List.map_cons, List.nodup_cons] at hnd
    rcases List.mem_cons.mp h1 with e1 | e1 <;> rcases List.mem_cons.mp h2 with e2 | e2
    · rw [e1, e2]
    · exfalso
      apply hnd.1
      have hw : r.word = r2.word := by rw [← e1, hc]
      rw [hw]
      exact List.mem_map_of_mem StoreRecord.word e2
    · exfalso
      apply hnd.1
      have hw : r.word = r1.word := by rw [← e2, ← hc]
      rw [hw]
      exact List.mem_map_of_mem StoreRecord.word e1
    · exact ih e1 e2 hnd.2

/-! ### fetchWithTimeout / fetchFromAPI (utils.js) -/

/-- A JS error value as observed by the catch blocks: its `name` and
`message`.  A plain `new Error(msg)` has name `"Error"`. -/
structure JSError where
  name : String
  message : String
deriving Repr, DecidableEq

deriving instance DecidableEq for Except

/-- A JS fetch `Response`: status code plus parsed JSON body. -/
structure JSResponse (V : Type) where
  status : Nat
  body : V
deriving Repr, DecidableEq

/-- `response.ok`: status in the 2xx range. -/
def JSResponse.ok (r : JSResponse V) : Bool :=
  200 ≤ r.status && r.status < 300

/-- Outcome of one underlying `fetch(url, {signal})` call, supplied by the
environment: either the promise resolves with a response, or it rejects
with an error carrying a `name` and a `message`.  The timer firing and
aborting the controller manifests as a rejection named `"AbortError"`. -/
inductive AttemptOutcome (V : Type) where
  | response (status : Nat) (body : V)
  | reject (name message : String)
deriving Repr, DecidableEq

/-- `fetchWithTimeout(url, options, timeout, retries)` modelled over an
environment `env` assigning an outcome to each attempt index, starting at
attempt `i`.  Returns the settled result together with the total number
of fetch attempts performed.  A resolved response (any status) is
returned after clearing the timer; a rejection named `"AbortError"`
(the timeout) is converted to `Error("Request timeout")` and thrown
without consulting the retry budget; any other rejection is retried
after a fixed delay while `retries > 0`, and thrown once the budget is
exhausted. -/
def fetchWithTimeout (env : Nat → AttemptOutcome V) (i : Nat) (retries : Nat) :
    Except JSError (JSResponse V) × Nat :=
  match env i with
  | AttemptOutcome.response st b => (Except.ok ⟨st, b⟩, 1)
  | AttemptOutcome.reject name msg =>
    if name = "AbortError" then
      (Except.error ⟨"Error", "Request timeout"⟩, 1)
    else
      match retries with
      | 0 => (Except.error ⟨name, msg⟩, 1)
      | r + 1 =>
        let rec1 := fetchWithTimeout env (i + 1) r
        (rec1.1, rec1.2 + 1)

/-- Result value of `DictionaryManager.fetchFromAPI`: `{ data }` on
success, `{ error: 'not_found' }` on a 404, `{ error: 'timeout' }` when
an `AbortError` reaches its catch block. -/
inductive APIResult (V : Type) where
  | data (d : V)
  | notFoundErr
  | timeoutErr
deriving Repr, DecidableEq

/-- `DictionaryManager.fetchFromAPI(word)`: runs `fetchWithTimeout`; a
non-ok response that is a 404 becomes `{ error: 'not_found' }`, any other
non-ok status is thrown as `Error("API error: ...")`; a thrown error
named `"AbortError"` becomes `{ error: 'timeout' }` and anything else
propagates to the caller.  The pair also reports the number of fetch
attempts performed. -/
def fetchFromAPI (env : Nat → AttemptOutcome V) (retries : Nat) :
    Except JSError (APIResult V) × Nat :=
  match fetchWithTimeout env 0 retries with
  | (Except.ok resp, n) =>
    if resp.ok then (Except.ok (APIResult.data resp.body), n)
    else if resp.status = 404 then (Except.ok APIResult.notFoundErr, n)
    else (Except.error ⟨"Error", "API error: " ++ Nat.repr resp.status⟩, n)
  | (Except.error e, n) =>
    if e.name = "AbortError" then (Except.ok APIResult.timeoutErr, n)
    else (Except.error e, n)

/-! ### DictionaryManager.getDefinition (utils.js): the 3-layer lookup -/

/-- The tier that produced a successful lookup. -/
inductive Source where
  | hot_cache
  | indexeddb
  | api
deriving Repr, DecidableEq

/-- The value `getDefinition` resolves with: a definition tagged with its
source, or one of the error results the function returns. -/
inductive DefResult (V : Type) where
  | found (data : V) (source : Source)
  | notFound
  | timeout
  | networkError (message : String)
deriving Repr, DecidableEq

/-- External behaviour consumed by one `getDefinition` call: the current
time, whether the IndexedDB layer is available after `initDB` (the class
loaded and `init` succeeded), the outcome of the `db.get` lookup, the
outcome of each network attempt, the configured retry count, and whether
the best-effort `db.set` write-back succeeds. -/
structure ResolveEnv (V : Type) where
  now : Nat
  dbLoaded : Bool
  dbGet : Except Unit (Option (StoreRecord V))
  fetchEnv : Nat → AttemptOutcome V
  retries : Nat
  dbSetOk : Bool

/-- `DictionaryManager.getDefinition(word)`: normalize the key, then try
the hot cache (key `"word_" ++ cleanWord`), then IndexedDB (populating
the hot cache on a hit, lookup failures swallowed), then the API
(populating both layers on success; a failed `db.set` is caught and
logged; a thrown fetch error becomes `{ error: 'network', message }`).
Returns the result together with the updated hot cache and store. -/
def getDefinition (hotCache : SimpleCache String V)
    (store : List (StoreRecord V)) (env : ResolveEnv V) (word : String) :
    DefResult V × SimpleCache String V × List (StoreRecord V) :=
  let cleanWord := normalizeKey word
  let cacheKey := "word_" ++ cleanWord
  let probe := SimpleCache.get hotCache env.now cacheKey
  let c1 := probe.2
  match probe.1 with
  | some v => (DefResult.found v Source.hot_cache, c1, store)
  | none =>
    let dbHit : Option V :=
      if env.dbLoaded then
        match env.dbGet with
        | Except.ok (some rec) => some rec.data
        | _ => none
      else none
    match dbHit with
    | some d => (DefResult.found d Source.indexeddb, c1.set env.now cacheKey d, store)
    | none =>
      match (fetchFromAPI env.fetchEnv env.retries).1 with
      | Except.ok (APIResult.data d) =>
        let c2 := c1.set env.now cacheKey d
        let store' :=
          if env.dbLoaded then
            if env.dbSetOk then
              match DictionaryDB.set store ⟨cleanWord, d, env.now⟩ env.now with
              | Except.ok s' => s'
              | Except.error _ => store
            else store
          else store
        (DefResult.found d Source.api, c2, store')
      | Except.ok APIResult.notFoundErr => (DefResult.notFound, c1, store)
      | Except.ok APIResult.timeoutErr => (DefResult.timeout, c1, store)
      | Except.error e => (DefResult.networkError e.message, c1, store)

/-! ### DictionaryManager.preloadDictionary (utils.js) -/

/-- One input entry for the bulk preload: `{word, data}` where `word`
may be absent. -/
structure PreloadEntry (V : Type) where
  word : Option String
  data : V
deriving Repr, DecidableEq

/-- The per-entry formatting step of `preloadDictionary`:
`entry.word?.trim().toLowerCase() || ''` (an absent word becomes the
empty string; `normalizeKey` already yields `""` when the trimmed,
lower-cased word is empty). -/
def formatWord (e : PreloadEntry V) : String :=
  match e.word with
  | some w => normalizeKey w
  | none => ""

/-- The batch loop of `preloadDictionary` (`batchSize` is the literal 100
in the source): take the next 100 entries, `setBatch` them, add the batch
length to `processed`, report `(processed, total)` to `onProgress`, yield,
and continue.  Returns the list of `onProgress` calls in order, plus the
final store.  The `fuel` argument is only a structural termination
measure; it never runs out while `remaining.length ≤ fuel`, since every
iteration shortens `remaining`. -/
def preloadGo (fuel : Nat) (store : List (StoreRecord V))
    (remaining : List (PreloadEntry V)) (processed total now : Nat) :
    List (Nat × Nat) × List (StoreRecord V) :=
  match fuel with
  | 0 => ([], store)
  | fuel' + 1 =>
    if remaining.isEmpty then ([], store)
    else
      let batch := remaining.take 100
      let store' := setBatchPure store (batch.map fun e => (formatWord e, e.data)) now
      let processed' := processed + batch.length
      let next := preloadGo fuel' store' (remaining.drop 100) processed' total now
      ((processed', total) :: next.1, next.2)

/-- `DictionaryManager.preloadDictionary(entries, onProgress)` on the
path where the store is available and every `setBatch` succeeds. -/
def preloadDictionary (entries : List (PreloadEntry V)) (now : Nat) :
    List (Nat × Nat) × List (StoreRecord V) :=
  preloadGo entries.length [] entries 0 entries.length now

/-! ### storeBatch (background.js): settling of the batch-write promise

`storeBatch(db, entries)` returns a promise that is resolved or rejected
only from inside the per-entry callbacks: a skipped entry (falsy `word`)
and a successful `put` each increment `completed` and resolve when
`completed === entries.length`; the first `put` error rejects.  The
synchronous skip callbacks run first (during the `forEach`), then the
`put` outcomes arrive in request order.  `DictionaryDB.setBatch` has the
identical structure. -/

/-- One input entry of `storeBatch`: the `word` may be absent. -/
structure BatchEntry (V : Type) where
  word : Option String
  data : V
deriving Repr, DecidableEq

/-- The `!entry.word` skip test: absent or empty word. -/
def BatchEntry.falsyWord (e : BatchEntry V) : Bool :=
  match e.word with
  | none => true
  | some w => w = ""

/-- Runs the settle discipline of the batch promise over the ordered
event list (one event per entry; `none` for a skip or a successful `put`,
`some e` for a failed `put`), with `n` the entry count and `completed`
the events already counted.  Returns the value the promise settles with,
or `none` when no callback ever resolves or rejects it. -/
def settleRun (n : Nat) : List (Option JSError) → Nat → Option (Except JSError Unit)
  | [], _ => none
  | ev :: rest, completed =>
    match ev with
    | none =>
      if completed + 1 = n then some (Except.ok ())
      else settleRun n rest (completed + 1)
    | some e => some (Except.error e)

/-- The settling of `storeBatch(db, entries)` given the outcome
`putErr j` of the `j`-th issued `put` request (`none` = success). -/
def storeBatch (entries : List (BatchEntry V)) (putErr : Nat → Option JSError) :
    Option (Except JSError Unit) :=
  let skips := (entries.filter (fun e => e.falsyWord)).length
  let puts := (entries.filter (fun e => !e.falsyWord)).length
  let events := List.replicate skips (none : Option JSError) ++ (List.range puts).map putErr
  settleRun entries.length events 0

theorem settleRun_isSome {events : List (Option JSError)} {n completed : Nat}
    (hlen : events.length + completed = n) (hne : events ≠ []) :
    (settleRun n events completed).isSome := by
  induction events generalizing completed with
  | nil => exact absurd rfl hne
  | cons ev rest ih =>
    unfold settleRun
    match ev with
    | some e => simp
    | none =>
      simp only
      split
      · simp
      · next hc =>
        apply ih
        · simp only [List.length_cons] at hlen
          omega
        · intro hrest
          apply hc
          rw [hrest] at hlen
          simp only [List.length_cons, List.length_nil] at hlen
          omega

theorem settleRun_all_none {events : List (Option JSError)} {n completed : Nat}
    (hall : ∀ e ∈ events, e = none) (hlen : events.length + completed = n)
    (hne : events ≠ []) : settleRun n events completed = some (Except.ok ()) := by
  induction events generalizing completed with
  | nil => exact absurd rfl hne
  | cons ev rest ih =>
    have hev : ev = none := hall ev (List.mem_cons_self _ _)
    subst hev
    unfold settleRun
    simp only
    split
    · rfl
    · next hc =>
      apply ih
      · intro e he
        exact hall e (List.mem_cons_of_mem _ he)
      · simp only [List.length_cons] at hlen
        omega
      · intro hrest
        apply hc
        rw [hrest] at hlen
        simp only [List.length_cons, List.length_nil] at hlen
        omega

theorem length_filter_add_length_filter_not (l : List (BatchEntry V)) :
    (l.filter (fun e => e.falsyWord)).length
      + (l.filter (fun e => !e.falsyWord)).length = l.length := by
  induction l with
  | nil => rfl
  | cons e rest ih =>
    by_cases he : e.falsyWord
    · rw [List.filter_cons_of_pos (by simpa using he),
        List.filter_cons_of_neg (by simpa using he)]
      simp only [List.length_cons]
      omega
    · rw [List.filter_cons_of_neg (by simpa using he),
        List.filter_cons_of_pos (by simpa using he)]
      simp only [List.length_cons]
      omega

/-! ### Claim C2: overwriting an existing key at capacity -/

/-- C2 counterexample.  The claim states that, at capacity, `set(k, v)`
with a key `k` already present updates `k`'s value but evicts no entry,
leaving the key set and the occupancy unchanged.  In the source,
`SimpleCache.set` evicts the first key whenever `size >= maxSize`,
without checking whether `key` is already present: with capacity 2 and
cache `a, b` (in insertion order), `set("b", 9)` evicts `"a"` and drops
the occupancy from 2 to 1. -/
theorem C2_counterexample :
    (("a" ∈ ((((SimpleCache.empty 2 1000 : SimpleCache String Nat).set 0 "a" 1).set 1
        "b" 2)).cache.map Prod.fst) ∧
      ((((SimpleCache.empty 2 1000 : SimpleCache String Nat).set 0 "a" 1).set 1
        "b" 2)).size = 2) ∧
    ("a" ∉ (((((SimpleCache.empty 2 1000 : SimpleCache String Nat).set 0 "a" 1).set 1
        "b" 2)).set 2 "b" 9).cache.map Prod.fst) ∧
    (((((SimpleCache.empty 2 1000 : SimpleCache String Nat).set 0 "a" 1).set 1
        "b" 2)).set 2 "b" 9).size = 1 := by
  decide

/-- C2 amended.  When the cache is at (or above) capacity, `set(k, v)`
with a key `k` that is already present but is not the oldest entry still
evicts the oldest entry: the first key in iteration order is removed,
every other entry keeps its position, `k`'s value is updated in place,
and the occupancy decreases by one. -/
theorem C2_overwrite_at_capacity_evicts_oldest {K V : Type} [DecidableEq K]
    (c : SimpleCache K V) (now : Nat) (k0 k : K) (i0 : CacheItem V)
    (rest : List (K × CacheItem V)) (v : V)
    (hc : c.cache = (k0, i0) :: rest)
    (hnd : (c.cache.map Prod.fst).Nodup)
    (hcap : c.maxSize ≤ c.cache.length)
    (hk : k ∈ rest.map Prod.fst) :
    (c.set now k v).cache.map Prod.fst = rest.map Prod.fst ∧
    (c.set now k v).size = c.size - 1 ∧
    mapGet k (c.set now k v).cache = some ⟨v, now⟩ := by
  rw [hc] at hnd hcap
  have hdel : mapDelete k0 ((k0, i0) :: rest) = rest :=
    mapDelete_cons_head_of_nodup hnd
  have hset : (c.set now k v).cache = mapSet k ⟨v, now⟩ rest := by
    unfold SimpleCache.set
    simp only [hc]
    rw [if_pos hcap, hdel]
  have hkeys : (c.set now k v).cache.map Prod.fst = rest.map Prod.fst := by
    rw [hset]
    exact map_fst_mapSet_of_mem hk
  refine ⟨hkeys, ?_, ?_⟩
  · have hlen := congrArg List.length hkeys
    simp only [List.length_map] at hlen
    unfold SimpleCache.size
    rw [hlen, hc]
    simp
  · rw [hset]
    exact mapGet_mapSet_self k ⟨v, now⟩ rest

/-- C2 witness: the amended theorem applied to the concrete capacity-2
scenario of the counterexample. -/
theorem C2_overwrite_at_capacity_evicts_oldest_witness :
    ((((SimpleCache.empty 2 1000 : SimpleCache String Nat).set 0 "a" 1).set 1
        "b" 2).set 2 "b" 9).cache.map Prod.fst = [("b", CacheItem.mk 2 1)].map Prod.fst ∧
    ((((SimpleCache.empty 2 1000 : SimpleCache String Nat).set 0 "a" 1).set 1
        "b" 2).set 2 "b" 9).size
      = (((SimpleCache.empty 2 1000 : SimpleCache String Nat).set 0 "a" 1).set 1
        "b" 2).size - 1 ∧
    mapGet "b" ((((SimpleCache.empty 2 1000 : SimpleCache String Nat).set 0 "a" 1).set 1
        "b" 2).set 2 "b" 9).cache = some ⟨9, 2⟩ :=
  C2_overwrite_at_capacity_evicts_oldest _ 2 "a" "b" ⟨1, 0⟩ [("b", CacheItem.mk 2 1)] 9
    (by decide) (by decide) (by decide) (by decide)

/-! ### Claim C4: LRU eviction with promotion on get -/

/-- C4.  Inserting a fresh key into a full cache evicts exactly the
entry at the front of the iteration order and keeps every other entry
(conjunct 1); a successful `get` moves the accessed entry to the
most-recently-used end and touches nothing else, so the front entry is
always the least-recently-accessed one (conjunct 2); and the concrete
capacity-2 scenario behaves as specified: `set("a",1)`, `set("b",2)`,
`get("a")` (returns 1 and promotes), then `set("c",3)` evicts `"b"`:
afterwards `get("b")` is absent, `get("a")` returns 1, `get("c")`
returns 3 (conjunct 3). -/
theorem C4_lru_eviction {K V : Type} [DecidableEq K] :
    (∀ (c : SimpleCache K V) (now : Nat) (k : K) (v : V),
      (c.cache.map Prod.fst).Nodup → c.cache.length = c.maxSize → 0 < c.maxSize →
      k ∉ c.cache.map Prod.fst →
      (c.set now k v).cache.map Prod.fst = (c.cache.map Prod.fst).tail ++ [k]) ∧
    (∀ (c : SimpleCache K V) (now : Nat) (k : K),
      ((c.get now k).1).isSome →
      ((c.get now k).2).cache.map Prod.fst
        = ((c.cache.map Prod.fst).filter (fun x => x ≠ k)) ++ [k]) ∧
    ((((((SimpleCache.empty 2 1000 : SimpleCache String Nat).set 0 "a" 1).set 1
          "b" 2).get 2 "a").1 = some 1) ∧
      (((((((SimpleCache.empty 2 1000 : SimpleCache String Nat).set 0 "a" 1).set 1
          "b" 2).get 2 "a").2).set 3 "c" 3).get 4 "b").1 = none ∧
      (((((((SimpleCache.empty 2 1000 : SimpleCache String Nat).set 0 "a" 1).set 1
          "b" 2).get 2 "a").2).set 3 "c" 3).get 4 "a").1 = some 1 ∧
      (((((((SimpleCache.empty 2 1000 : SimpleCache String Nat).set 0 "a" 1).set 1
          "b" 2).get 2 "a").2).set 3 "c" 3).get 4 "c").1 = some 3) := by
  refine ⟨?_, ?_, by decide⟩
  · intro c now k v hnd hlen hpos hfresh
    cases hc : c.cache with
    | nil =>
      rw [hc] at hlen
      simp only [List.length_nil] at hlen
      omega
    | cons p rest =>
      obtain ⟨k0, i0⟩ := p
      rw [hc] at hnd hfresh
      have hcap : c.maxSize ≤ c.cache.length := Nat.le_of_eq hlen.symm
      have hset : (c.set now k v).cache = mapSet k ⟨v, now⟩ rest := by
        unfold SimpleCache.set
        simp only [hc]
        rw [if_pos (hc ▸ hcap), mapDelete_cons_head_of_nodup hnd]
      rw [hset]
      simp only [List.map_cons, List.mem_cons] at hfresh
      push_neg at hfresh
      rw [mapSet_eq_append_of_not_mem hfresh.2]
      simp
  · intro c now k h
    unfold SimpleCache.get at h ⊢
    cases hg : mapGet k c.cache with
    | none =>
      rw [hg] at h
      simp at h
    | some item =>
      rw [hg] at h
      simp only at h ⊢
      by_cases hexp : c.ttl < now - item.timestamp
      · rw [if_pos hexp] at h
        simp at h
      · rw [if_neg hexp]
        simp only
        rw [mapSet_eq_append_of_not_mem (not_mem_map_fst_mapDelete k c.cache)]
        rw [List.map_append, map_fst_mapDelete]
        rfl

/-- C4 witness: the eviction conjunct applied to the concrete scenario
state (`a` promoted, `b` least recently used), and the promotion
conjunct applied to the `get("a")` step. -/
theorem C4_lru_eviction_witness :
    (((((((SimpleCache.empty 2 1000 : SimpleCache String Nat).set 0 "a" 1).set 1
        "b" 2).get 2 "a").2).set 3 "c" 3).cache.map Prod.fst
      = (((((((SimpleCache.empty 2 1000 : SimpleCache String Nat).set 0 "a" 1).set 1
        "b" 2).get 2 "a").2).cache.map Prod.fst).tail ++ ["c"])) ∧
    ((((((SimpleCache.empty 2 1000 : SimpleCache String Nat).set 0 "a" 1).set 1
        "b" 2).get 2 "a").2).cache.map Prod.fst
      = ((((((SimpleCache.empty 2 1000 : SimpleCache String Nat).set 0 "a" 1).set 1
        "b" 2)).cache.map Prod.fst).filter (fun x => x ≠ "a")) ++ ["a"]) :=
  ⟨(@C4_lru_eviction String Nat _).1
      ((((SimpleCache.empty 2 1000).set 0 "a" 1).set 1 "b" 2).get 2 "a").2
      3 "c" 3 (by decide) (by decide) (by decide) (by decide),
    (@C4_lru_eviction String Nat _).2.1
      (((SimpleCache.empty 2 1000).set 0 "a" 1).set 1 "b" 2)
      2 "a" (by decide)⟩

/-! ### Claim C8: TTL expiry on access -/

/-- C8 counterexample.  The claim states that every value returned by
`get` is younger than the configured TTL.  The source's expiry check is
`now - timestamp > ttl` (strict), so at age exactly `ttl` the entry is
still returned: with TTL 1000, an entry set at time 0 is returned by a
`get` at time 1000, and its age 1000 is not less than the TTL 1000. -/
theorem C8_counterexample :
    (((SimpleCache.empty 10 1000 : SimpleCache String Nat).set 0 "a" 1).get
        1000 "a").1 = some 1 ∧
    ¬ (1000 - 0 < 1000) := by
  decide

/-- C8 amended.  Every value returned by `get` is the value of the item
stored under that key and its age is at most the TTL (an entry of age
exactly `ttl` is still served) (conjunct 1); an entry inserted at time
`T` is absent from a `get` at any time with `now - T > ttl`, regardless
of the interleaved `get`s, because promotion re-inserts the stored item
without refreshing its timestamp (conjunct 2). -/
theorem C8_ttl_expiry {K V : Type} [DecidableEq K] :
    (∀ (c : SimpleCache K V) (now : Nat) (key : K) (v : V) (item : CacheItem V),
      mapGet key c.cache = some item →
      (c.get now key).1 = some v →
      item.value = v ∧ now - item.timestamp ≤ c.ttl) ∧
    (∀ (c0 : SimpleCache K V) (T : Nat) (k : K) (v : V)
        (gets : List (Nat × K)) (now : Nat),
      (c0.cache.map Prod.fst).Nodup →
      c0.ttl < now - T →
      ((applyGets (c0.set T k v) gets).get now k).1 = none) := by
  constructor
  · intro c now key v item hg h
    unfold SimpleCache.get at h
    rw [hg] at h
    simp only at h
    by_cases hexp : c.ttl < now - item.timestamp
    · rw [if_pos hexp] at h
      simp at h
    · rw [if_neg hexp] at h
      simp only [Option.some.injEq] at h
      exact ⟨h, Nat.le_of_not_lt hexp⟩
  · intro c0 T k v gets now hnd hold
    have hnd1 : (((c0.set T k v)).cache.map Prod.fst).Nodup :=
      SimpleCache.nodup_set hnd
    have httl : (applyGets (c0.set T k v) gets).ttl = c0.ttl := by
      rw [applyGets_ttl, SimpleCache.ttl_set]
    unfold SimpleCache.get
    cases hg : mapGet k (applyGets (c0.set T k v) gets).cache with
    | none => rfl
    | some item =>
      have hmem2 : (k, item) ∈ (applyGets (c0.set T k v) gets).cache :=
        mapGet_mem hg
      have hmem1 : (k, item) ∈ ((c0.set T k v)).cache := applyGets_mem hmem2
      have hitem : item = ⟨v, T⟩ := by
        have h1 := mapGet_eq_some_of_mem_nodup hnd1 hmem1
        have h2 := SimpleCache.mapGet_set_self c0 T k v
        rw [h1] at h2
        exact (Option.some.injEq _ _ ▸ h2)
      subst hitem
      simp only
      rw [if_pos (by rw [httl]; exact hold)]

/-- C8 witness: the age bound applied to a just-inserted entry read
within the TTL, and the expiry conjunct applied to an entry read at
`ttl + 1` milliseconds after insertion, with one interleaved `get`. -/
theorem C8_ttl_expiry_witness :
    ((CacheItem.mk 7 0 : CacheItem Nat).value = 7 ∧
      (500 : Nat) - (CacheItem.mk 7 0 : CacheItem Nat).timestamp ≤
        (((SimpleCache.empty 10 1000 : SimpleCache String Nat).set 0 "a" 7)).ttl) ∧
    ((applyGets ((SimpleCache.empty 10 1000 : SimpleCache String Nat).set 0 "a" 7)
        [(500, "a")]).get 1001 "a").1 = none :=
  ⟨(@C8_ttl_expiry String Nat _).1
      ((SimpleCache.empty 10 1000 : SimpleCache String Nat).set 0 "a" 7)
      500 "a" 7 ⟨7, 0⟩ (by decide) (by decide),
    (@C8_ttl_expiry String Nat _).2
      (SimpleCache.empty 10 1000) 0 "a" 7 [(500, "a")] 1001 (by decide) (by decide)⟩

/-! ### Claim C1: timeout handling in the remote fetch -/

/-- C1 counterexample.  The claim states that a fetch whose deadline
elapses is retried exactly `retryCount` times before a timeout error is
surfaced.  In the source, `fetchWithTimeout` checks
`error.name === 'AbortError'` and throws `Error("Request timeout")`
*before* the retry branch, so a timed-out attempt is never retried: with
`retries = 2` and every attempt timing out, exactly one attempt is made
(three would be needed for two retries), and the error that reaches
`getDefinition` is reported as the generic network error kind
(`{error: 'network'}`), not a timeout kind. -/
theorem C1_counterexample :
    (fetchWithTimeout
        (fun _ => (AttemptOutcome.reject "AbortError" "signal aborted" : AttemptOutcome Nat))
        0 2).2 = 1 ∧
    (fetchWithTimeout
        (fun _ => (AttemptOutcome.reject "AbortError" "signal aborted" : AttemptOutcome Nat))
        0 2).1 = Except.error ⟨"Error", "Request timeout"⟩ ∧
    (getDefinition (SimpleCache.empty 5 1000) []
        ⟨0, false, Except.ok none,
          fun _ => (AttemptOutcome.reject "AbortError" "signal aborted" : AttemptOutcome Nat),
          2, true⟩
        "hello").1 = DefResult.networkError "Request timeout" := by
  decide

/-- C1 amended.  A fetch attempt that times out (the abort fires, so the
in-flight request is cancelled and the call returns rather than hanging)
is surfaced immediately with zero retries, whatever the configured retry
count: `fetchWithTimeout` performs exactly one attempt and throws
`Error("Request timeout")` (conjunct 1); the retry budget applies only
to non-abort failures (conjunct 2, where one transient failure consumes
one retry); and at the resolution level the timeout reaches the caller
as the generic network error kind with message `"Request timeout"`, not
as a timeout error kind (conjunct 3). -/
theorem C1_timeout_not_retried {V : Type} :
    (∀ (env : Nat → AttemptOutcome V) (retries : Nat) (m : String),
      env 0 = AttemptOutcome.reject "AbortError" m →
      fetchWithTimeout env 0 retries
        = (Except.error ⟨"Error", "Request timeout"⟩, 1)) ∧
    (∀ (env : Nat → AttemptOutcome V) (retries : Nat) (name m : String)
        (st : Nat) (b : V),
      env 0 = AttemptOutcome.reject name m →
      name ≠ "AbortError" →
      env 1 = AttemptOutcome.response st b →
      fetchWithTimeout env 0 (retries + 1) = (Except.ok ⟨st, b⟩, 2)) ∧
    (∀ (cache : SimpleCache String V) (store : List (StoreRecord V))
        (env : ResolveEnv V) (word m : String),
      (cache.get env.now ("word_" ++ normalizeKey word)).1 = none →
      env.dbLoaded = false →
      env.fetchEnv 0 = AttemptOutcome.reject "AbortError" m →
      (getDefinition cache store env word).1
        = DefResult.networkError "Request timeout") := by
  have hFWT : ∀ (env : Nat → AttemptOutcome V) (retries : Nat) (m : String),
      env 0 = AttemptOutcome.reject "AbortError" m →
      fetchWithTimeout env 0 retries
        = (Except.error ⟨"Error", "Request timeout"⟩, 1) := by
    intro env retries m h
    unfold fetchWithTimeout
    rw [h]
    simp
  refine ⟨hFWT, ?_, ?_⟩
  · intro env retries name m st b h0 hname h1
    unfold fetchWithTimeout
    rw [h0]
    simp only [if_neg hname]
    unfold fetchWithTimeout
    rw [h1]
  · intro cache store env word m hmiss hdb hfetch
    have hAPI : fetchFromAPI env.fetchEnv env.retries
        = (Except.error ⟨"Error", "Request timeout"⟩, 1) := by
      unfold fetchFromAPI
      rw [hFWT env.fetchEnv env.retries m hfetch]
      rfl
    unfold getDefinition
    simp [hmiss, hdb, hAPI]

/-- C1 witness: the amended theorem applied to an environment whose
every attempt times out (with `retries = 2`), to one with a single
transient failure followed by a response, and to a concrete
`getDefinition` call over the timing-out environment. -/
theorem C1_timeout_not_retried_witness :
    fetchWithTimeout
        (fun _ => (AttemptOutcome.reject "AbortError" "signal aborted" : AttemptOutcome Nat))
        0 2 = (Except.error ⟨"Error", "Request timeout"⟩, 1) ∧
    fetchWithTimeout
        (fun i => if i = 0 then (AttemptOutcome.reject "TypeError" "Failed to fetch" : AttemptOutcome Nat)
          else AttemptOutcome.response 200 7)
        0 2 = (Except.ok ⟨200, 7⟩, 2) ∧
    (getDefinition (SimpleCache.empty 5 1000) []
        ⟨0, false, Except.ok none,
          fun _ => (AttemptOutcome.reject "AbortError" "signal aborted" : AttemptOutcome Nat),
          2, true⟩
        "hello").1 = DefResult.networkError "Request timeout" :=
  ⟨(@C1_timeout_not_retried Nat).1 _ 2 "signal aborted" rfl,
    (@C1_timeout_not_retried Nat).2.1 _ 1 "TypeError" "Failed to fetch" 200 7
      rfl (by decide) rfl,
    (@C1_timeout_not_retried Nat).2.2 _ _ _ "hello" "signal aborted"
      (by decide) rfl rfl⟩

/-! ### Claim C9: a 404 response short-circuits retries -/

/-- C9.  A fetch whose first attempt resolves with status 404 is not
retried: `fetchWithTimeout` returns any resolved response immediately
(retries apply only to rejected promises), and `fetchFromAPI` maps the
non-ok 404 status to `{ error: 'not_found' }`.  Whatever the configured
retry count, exactly one attempt is performed and the result is
`NotFoundError`; at the resolution level the caller receives the
not-found result. -/
theorem C9_notfound_zero_retries {V : Type} :
    (∀ (env : Nat → AttemptOutcome V) (retries : Nat) (b : V),
      env 0 = AttemptOutcome.response 404 b →
      fetchFromAPI env retries = (Except.ok APIResult.notFoundErr, 1)) ∧
    (∀ (cache : SimpleCache String V) (store : List (StoreRecord V))
        (env : ResolveEnv V) (word : String) (b : V),
      (cache.get env.now ("word_" ++ normalizeKey word)).1 = none →
      env.dbLoaded = false →
      env.fetchEnv 0 = AttemptOutcome.response 404 b →
      (getDefinition cache store env word).1 = DefResult.notFound) := by
  have hAPI : ∀ (env : Nat → AttemptOutcome V) (retries : Nat) (b : V),
      env 0 = AttemptOutcome.response 404 b →
      fetchFromAPI env retries = (Except.ok APIResult.notFoundErr, 1) := by
    intro env retries b h
    unfold fetchFromAPI fetchWithTimeout
    rw [h]
    rfl
  refine ⟨hAPI, ?_⟩
  intro cache store env word b hmiss hdb hfetch
  unfold getDefinition
  simp [hmiss, hdb, hAPI env.fetchEnv env.retries b hfetch]

/-- C9 witness: a 404 environment with `retries = 2` makes exactly one
attempt and yields the not-found result at both levels. -/
theorem C9_notfound_zero_retries_witness :
    fetchFromAPI (fun _ => (AttemptOutcome.response 404 0 : AttemptOutcome Nat)) 2
      = (Except.ok APIResult.notFoundErr, 1) ∧
    (getDefinition (SimpleCache.empty 5 1000) []
        ⟨0, false, Except.ok none,
          fun _ => (AttemptOutcome.response 404 0 : AttemptOutcome Nat), 2, true⟩
        "hello").1 = DefResult.notFound :=
  ⟨(@C9_notfound_zero_retries Nat).1 _ 2 0 rfl,
    (@C9_notfound_zero_retries Nat).2 _ _ _ "hello" 0 (by decide) rfl rfl⟩

/-! ### Claim C3: empty key after normalization -/

/-- C3 counterexample.  The claim states that a key that is empty after
normalization is reported as an input error immediately, without probing
any tier.  `getDefinition` performs no empty-key check at all (and no
input-error kind exists in its result shape): the whitespace-only word
`"   "` normalizes to `""`, flows through the whole cascade under the
cache key `"word_"`, reaches the remote tier, and resolves with the
fetched value and source `api`. -/
theorem C3_counterexample :
    normalizeKey "   " = "" ∧
    (getDefinition (SimpleCache.empty 5 1000) []
        ⟨0, false, Except.ok none,
          fun _ => (AttemptOutcome.response 200 42 : AttemptOutcome Nat), 2, true⟩
        "   ").1 = DefResult.found 42 Source.api := by
  decide

/-- C3 amended.  `getDefinition` treats a key that is empty after
normalization like any other key: no input error is reported; the hot
cache is probed under the key `"word_"`, then the store, then the remote
tier, whose outcome becomes the result (here: a cache- and store-missing
environment whose fetch resolves with data `d` yields
`{data: d, source: 'api'}`). -/
theorem C3_empty_key_not_rejected {V : Type}
    (cache : SimpleCache String V) (store : List (StoreRecord V))
    (env : ResolveEnv V) (word : String) (d : V)
    (hw : normalizeKey word = "")
    (hmiss : (cache.get env.now "word_").1 = none)
    (hdb : env.dbLoaded = false)
    (hfetch : env.fetchEnv 0 = AttemptOutcome.response 200 d) :
    (getDefinition cache store env word).1 = DefResult.found d Source.api := by
  have hkey : ("word_" ++ normalizeKey word) = "word_" := by
    rw [hw]
    decide
  have hAPI : fetchFromAPI env.fetchEnv env.retries
      = (Except.ok (APIResult.data d), 1) := by
    unfold fetchFromAPI fetchWithTimeout
    rw [hfetch]
    rfl
  unfold getDefinition
  simp [hkey, hmiss, hdb, hAPI]

/-- C3 witness: the amended theorem applied to the whitespace-only word
over an empty cache, unavailable store, and a fetch resolving 42. -/
theorem C3_empty_key_not_rejected_witness :
    normalizeKey "   " = "" ∧
    (getDefinition (SimpleCache.empty 5 1000) []
        ⟨0, false, Except.ok none,
          fun _ => (AttemptOutcome.response 200 42 : AttemptOutcome Nat), 2, true⟩
        "   ").1 = DefResult.found 42 Source.api :=
  ⟨by decide,
    C3_empty_key_not_rejected (SimpleCache.empty 5 1000) []
      ⟨0, false, Except.ok none,
        fun _ => (AttemptOutcome.response 200 42 : AttemptOutcome Nat), 2, true⟩
      "   " 42 (by decide) (by decide) rfl rfl⟩

/-! ### Claim C5: store-tier failures never fail the resolution -/

/-- C5.  Store failures are absorbed by `getDefinition`: when the
persistent store is unavailable (initialization failed or the class did
not load), a cache miss proceeds straight to the remote tier and a
successful fetch resolves with source `api`, leaving the store untouched
(conjunct 1); when the store lookup throws, the error is caught and the
remote tier is still consulted (conjunct 2); and when the remote fetch
succeeds but the write-back `db.set` fails, the caller still receives
the fetched value with source `api` and the store is unchanged
(conjunct 3). -/
theorem C5_store_failures_absorbed {V : Type} :
    (∀ (cache : SimpleCache String V) (store : List (StoreRecord V))
        (env : ResolveEnv V) (word : String) (d : V),
      (cache.get env.now ("word_" ++ normalizeKey word)).1 = none →
      env.dbLoaded = false →
      (fetchFromAPI env.fetchEnv env.retries).1 = Except.ok (APIResult.data d) →
      (getDefinition cache store env word).1 = DefResult.found d Source.api ∧
        (getDefinition cache store env word).2.2 = store) ∧
    (∀ (cache : SimpleCache String V) (store : List (StoreRecord V))
        (env : ResolveEnv V) (word : String) (d : V),
      (cache.get env.now ("word_" ++ normalizeKey word)).1 = none →
      env.dbLoaded = true →
      env.dbGet = Except.error () →
      (fetchFromAPI env.fetchEnv env.retries).1 = Except.ok (APIResult.data d) →
      (getDefinition cache store env word).1 = DefResult.found d Source.api) ∧
    (∀ (cache : SimpleCache String V) (store : List (StoreRecord V))
        (env : ResolveEnv V) (word : String) (d : V),
      (cache.get env.now ("word_" ++ normalizeKey word)).1 = none →
      env.dbLoaded = true →
      env.dbGet = Except.ok none →
      env.dbSetOk = false →
      (fetchFromAPI env.fetchEnv env.retries).1 = Except.ok (APIResult.data d) →
      (getDefinition cache store env word).1 = DefResult.found d Source.api ∧
        (getDefinition cache store env word).2.2 = store) := by
  refine ⟨?_, ?_, ?_⟩
  · intro cache store env word d hmiss hdb hAPI
    unfold getDefinition
    constructor <;> simp [hmiss, hdb, hAPI]
  · intro cache store env word d hmiss hdb hdbGet hAPI
    unfold getDefinition
    simp [hmiss, hdb, hdbGet, hAPI]
  · intro cache store env word d hmiss hdb hdbGet hdbSet hAPI
    unfold getDefinition
    constructor <;> simp [hmiss, hdb, hdbGet, hdbSet, hAPI]

/-- C5 witness: the three conjuncts applied to concrete environments
(store unavailable; store lookup throwing; store write failing), each
with an empty cache and a fetch resolving 42. -/
theorem C5_store_failures_absorbed_witness :
    ((getDefinition (SimpleCache.empty 5 1000) ([] : List (StoreRecord Nat))
        ⟨0, false, Except.ok none,
          fun _ => AttemptOutcome.response 200 42, 2, true⟩ "hello").1
      = DefResult.found 42 Source.api ∧
      (getDefinition (SimpleCache.empty 5 1000) ([] : List (StoreRecord Nat))
        ⟨0, false, Except.ok none,
          fun _ => AttemptOutcome.response 200 42, 2, true⟩ "hello").2.2 = []) ∧
    (getDefinition (SimpleCache.empty 5 1000) ([] : List (StoreRecord Nat))
        ⟨0, true, Except.error (), fun _ => AttemptOutcome.response 200 42, 2,
          true⟩ "hello").1 = DefResult.found 42 Source.api ∧
    ((getDefinition (SimpleCache.empty 5 1000) ([] : List (StoreRecord Nat))
        ⟨0, true, Except.ok none, fun _ => AttemptOutcome.response 200 42, 2,
          false⟩ "hello").1 = DefResult.found 42 Source.api ∧
      (getDefinition (SimpleCache.empty 5 1000) ([] : List (StoreRecord Nat))
        ⟨0, true, Except.ok none, fun _ => AttemptOutcome.response 200 42, 2,
          false⟩ "hello").2.2 = []) :=
  ⟨(@C5_store_failures_absorbed Nat).1 _ _ _ "hello" 42 (by decide) rfl rfl,
    (@C5_store_failures_absorbed Nat).2.1 _ _ _ "hello" 42 (by decide) rfl rfl rfl,
    (@C5_store_failures_absorbed Nat).2.2 _ _ _ "hello" 42 (by decide) rfl rfl rfl rfl⟩

/-! ### Claim C6: round-trip through the store with key normalization -/

/-- C6.  `DictionaryDB.set(record)` followed by
`DictionaryDB.get(record.key)` returns a record with the identical value
and the normalized key, for any prior store contents and any mixed-case
or whitespace-laden input key (conjunct 1); two keys with the same
normalization address the same record, so `get("Hello ")` and a `set`
with key `"hello"` meet at the record stored under `"hello"`
(conjuncts 2 and 3); and after any history of `set` calls starting from
the empty store, no two distinct records have keys equal up to
normalization (trim + lowercase), since every stored key is kept in
normalized form and keys are unique (conjunct 4). -/
theorem C6_store_roundtrip_normalized {V : Type} :
    (∀ (store : List (StoreRecord V)) (entry : StoreRecord V) (now : Nat)
        (s' : List (StoreRecord V)),
      DictionaryDB.set store entry now = Except.ok s' →
      DictionaryDB.get s' entry.word
        = some ⟨normalizeKey entry.word, entry.data, now⟩) ∧
    (∀ (store : List (StoreRecord V)) (k1 k2 : String),
      normalizeKey k1 = normalizeKey k2 →
      DictionaryDB.get store k1 = DictionaryDB.get store k2) ∧
    (normalizeKey "Hello " = normalizeKey "hello" ∧ normalizeKey "Hello " = "hello") ∧
    (∀ (ops : List (StoreRecord V × Nat)) (r1 r2 : StoreRecord V),
      r1 ∈ runSets ops [] → r2 ∈ runSets ops [] → r1 ≠ r2 →
      normalizeKey r1.word ≠ normalizeKey r2.word) := by
  refine ⟨?_, ?_, by decide, ?_⟩
  · intro store entry now s' hset
    unfold DictionaryDB.set at hset
    split at hset
    · simp at hset
    · rw [Except.ok.injEq] at hset
      subst hset
      unfold DictionaryDB.get
      exact storeFind_storePut_self store (normalizeKey entry.word) entry.data now
  · intro store k1 k2 h
    unfold DictionaryDB.get
    rw [h]
  · intro ops r1 r2 h1 h2 hne
    have hInv := storeInv_runSets storeInv_nil ops
    have hw := word_ne_of_ne_of_storeInv hInv h1 h2 hne
    rw [hInv.1 r1 h1, hInv.1 r2 h2]
    exact hw

/-- C6 witness: the round-trip applied to the record
`{word: "  HeLLo ", data: 7}` over the empty store, and the
same-record conjunct applied to `"Hello "` versus `"hello"`. -/
theorem C6_store_roundtrip_normalized_witness :
    DictionaryDB.get
        (storePut ([] : List (StoreRecord Nat)) (normalizeKey "  HeLLo ") 7 3)
        "  HeLLo " = some ⟨normalizeKey "  HeLLo ", 7, 3⟩ ∧
    DictionaryDB.get [(⟨"hello", 9, 0⟩ : StoreRecord Nat)] "Hello "
      = DictionaryDB.get [(⟨"hello", 9, 0⟩ : StoreRecord Nat)] "hello" :=
  ⟨(@C6_store_roundtrip_normalized Nat).1 [] ⟨"  HeLLo ", 7, 0⟩ 3 _ (by decide),
    (@C6_store_roundtrip_normalized Nat).2.1 [⟨"hello", 9, 0⟩] "Hello " "hello"
      (by decide)⟩

theorem preloadGo_length {V : Type} (fuel : Nat) (store : List (StoreRecord V))
    (remaining : List (PreloadEntry V)) (processed total now : Nat)
    (hfuel : remaining.length ≤ fuel) :
    ((preloadGo fuel store remaining processed total now).1).length
      = (remaining.length + 99) / 100 := by
  induction fuel generalizing store remaining processed with
  | zero =>
    have hnil : remaining = [] :=
      List.eq_nil_of_length_eq_zero (Nat.le_antisymm hfuel (Nat.zero_le _))
    subst hnil
    simp [preloadGo]
  | succ fuel' ih =>
    unfold preloadGo
    by_cases he : remaining.isEmpty
    · rw [if_pos he]
      have hnil : remaining = [] := List.isEmpty_iff.mp he
      subst hnil
      simp
    · rw [if_neg he]
      have hne : remaining ≠ [] := by
        intro hc
        rw [hc] at he
        simp at he
      have hpos : 0 < remaining.length := List.length_pos.mpr hne
      simp only [List.length_cons]
      rw [ih _ _ _ (by simp only [List.length_drop]; omega)]
      simp only [List.length_drop]
      omega

theorem preloadGo_snd {V : Type} (fuel : Nat) (store : List (StoreRecord V))
    (remaining : List (PreloadEntry V)) (processed total now : Nat) :
    ∀ q ∈ (preloadGo fuel store remaining processed total now).1, q.2 = total := by
  induction fuel generalizing store remaining processed with
  | zero =>
    intro q hq
    simp [preloadGo] at hq
  | succ fuel' ih =>
    intro q hq
    unfold preloadGo at hq
    by_cases he : remaining.isEmpty
    · rw [if_pos he] at hq
      simp at hq
    · rw [if_neg he] at hq
      simp only [List.mem_cons] at hq
      rcases hq with hq | hq
      · rw [hq]
      · exact ih _ _ _ q hq

theorem preloadGo_fst_gt {V : Type} (fuel : Nat) (store : List (StoreRecord V))
    (remaining : List (PreloadEntry V)) (processed total now : Nat) :
    ∀ q ∈ (preloadGo fuel store remaining processed total now).1, processed < q.1 := by
  induction fuel generalizing store remaining processed with
  | zero =>
    intro q hq
    simp [preloadGo] at hq
  | succ fuel' ih =>
    intro q hq
    unfold preloadGo at hq
    by_cases he : remaining.isEmpty
    · rw [if_pos he] at hq
      simp at hq
    · rw [if_neg he] at hq
      have hne : remaining ≠ [] := by
        intro hc
        rw [hc] at he
        simp at he
      have hpos : 0 < remaining.length := List.length_pos.mpr hne
      have hbatch : 0 < (remaining.take 100).length := by
        simp only [List.length_take]
        omega
      simp only [List.mem_cons] at hq
      rcases hq with hq | hq
      · rw [hq]
        simp only
        omega
      · have := ih _ _ _ q hq
        omega

theorem preloadGo_chain {V : Type} (fuel : Nat) (store : List (StoreRecord V))
    (remaining : List (PreloadEntry V)) (processed total now : Nat) :
    List.Chain' (fun a b => a.1 < b.1)
      (preloadGo fuel store remaining processed total now).1 := by
  induction fuel generalizing store remaining processed with
  | zero => simp [preloadGo]
  | succ fuel' ih =>
    unfold preloadGo
    by_cases he : remaining.isEmpty
    · rw [if_pos he]
      simp
    · rw [if_neg he]
      simp only
      rw [List.chain'_cons']
      refine ⟨?_, ih _ _ _⟩
      intro y hy
      have hmem : y ∈ (preloadGo fuel' _ (remaining.drop 100)
          (processed + (remaining.take 100).length) total now).1 :=
        List.mem_of_mem_head? hy
      exact preloadGo_fst_gt _ _ _ _ _ _ y hmem

theorem preloadGo_last {V : Type} (fuel : Nat) (store : List (StoreRecord V))
    (remaining : List (PreloadEntry V)) (processed total now : Nat)
    (hfuel : remaining.length ≤ fuel) (hne : remaining ≠ []) :
    ((preloadGo fuel store remaining processed total now).1).getLast?
      = some (processed + remaining.length, total) := by
  induction fuel generalizing store remaining processed with
  | zero =>
    exact absurd (List.eq_nil_of_length_eq_zero
      (Nat.le_antisymm hfuel (Nat.zero_le _))) hne
  | succ fuel' ih =>
    unfold preloadGo
    rw [if_neg (by simpa using hne)]
    have hpos : 0 < remaining.length := List.length_pos.mpr hne
    by_cases hrest : remaining.drop 100 = []
    · have hlen : remaining.length ≤ 100 := by
        have := congrArg List.length hrest
        simp only [List.length_drop, List.length_nil] at this
        omega
      have hbatch : (remaining.take 100).length = remaining.length := by
        simp only [List.length_take]
        omega
      simp only [hrest]
      rw [show preloadGo fuel' (setBatchPure store ((remaining.take 100).map
        fun e => (formatWord e, e.data)) now) [] (processed + (remaining.take 100).length)
        total now = ([], _) from by cases fuel' <;> rfl]
      simp [hbatch]
    · have hlen : 100 < remaining.length := by
        by_contra hc
        apply hrest
        apply List.eq_nil_of_length_eq_zero
        simp only [List.length_drop]
        omega
      have hbatch : (remaining.take 100).length = 100 := by
        simp only [List.length_take]
        omega
      have hfuel2 : (remaining.drop 100).length ≤ fuel' := by
        rw [List.length_drop]
        omega
      have ihlast := ih (setBatchPure store ((remaining.take 100).map
          fun e => (formatWord e, e.data)) now) (remaining.drop 100)
          (processed + (remaining.take 100).length) hfuel2 hrest
      have hdl : (remaining.drop 100).length = remaining.length - 100 := by
        rw [List.length_drop]
      simp only
      rw [List.getLast?_cons, ihlast]
      simp only [Option.getD_some, hbatch]
      rw [hdl]
      simp only [Option.some.injEq, Prod.mk.injEq]
      exact ⟨by omega, trivial⟩

/-! ### Claim C7: preload batching and progress reporting -/

/-- One hundred concrete preload records with pairwise distinct,
non-empty, already-normalized one-character words. -/
def entries100 : List (PreloadEntry Nat) :=
  (List.range 100).map (fun i => ⟨some (String.mk [Char.ofNat (97 + i)]), i⟩)

set_option maxRecDepth 20000 in
/-- C7 counterexample.  The claim's concrete scenario says preloading
100 records "with batch size 10" invokes `onProgress` exactly 10 times.
The source hard-codes `batchSize = 100` in `preloadDictionary` (there is
no way to run it with batch size 10), so 100 records form a single batch
and `onProgress` is invoked exactly once, with `(100, 100)`. -/
theorem C7_counterexample :
    (preloadDictionary entries100 5).1 = [(100, 100)] ∧
    ((preloadDictionary entries100 5).1).length ≠ 10 := by
  decide

set_option maxRecDepth 20000 in
/-- C7 amended.  `preloadDictionary` partitions its input into
fixed-size batches of 100 (the hard-coded batch size), calls `setBatch`
once per batch and `onProgress` exactly once after each batch —
`⌈n/100⌉` invocations in total (conjunct 1) — always reporting the
total `n` as second component (conjunct 2), with strictly increasing
processed counts (conjunct 3) ending at `n` (conjunct 4); concretely,
100 records produce exactly one invocation `(100, 100)`, and when their
normalized keys are distinct and non-empty the store afterwards holds
100 records (conjunct 5). -/
theorem C7_preload_batches {V : Type} :
    (∀ (entries : List (PreloadEntry V)) (now : Nat),
      ((preloadDictionary entries now).1).length = (entries.length + 99) / 100) ∧
    (∀ (entries : List (PreloadEntry V)) (now : Nat),
      ∀ q ∈ (preloadDictionary entries now).1, q.2 = entries.length) ∧
    (∀ (entries : List (PreloadEntry V)) (now : Nat),
      List.Chain' (fun a b => a.1 < b.1) (preloadDictionary entries now).1) ∧
    (∀ (entries : List (PreloadEntry V)) (now : Nat),
      entries ≠ [] →
      ((preloadDictionary entries now).1).getLast?
        = some (entries.length, entries.length)) ∧
    ((preloadDictionary entries100 5).1 = [(100, 100)] ∧
      DictionaryDB.count (preloadDictionary entries100 5).2 = 100) := by
  refine ⟨?_, ?_, ?_, ?_, by decide⟩
  · intro entries now
    exact preloadGo_length entries.length [] entries 0 entries.length now
      (Nat.le_refl _)
  · intro entries now
    exact preloadGo_snd entries.length [] entries 0 entries.length now
  · intro entries now
    exact preloadGo_chain entries.length [] entries 0 entries.length now
  · intro entries now hne
    have h := preloadGo_last entries.length [] entries 0 entries.length now
      (Nat.le_refl _) hne
    simpa using h

/-- C7 witness: the final-count conjunct applied to the 100 concrete
records, together with the per-batch count conjunct at the same input. -/
theorem C7_preload_batches_witness :
    ((preloadDictionary entries100 5).1).getLast? = some (100, 100) ∧
    ((preloadDictionary entries100 5).1).length = (entries100.length + 99) / 100 :=
  ⟨by
      have h := (@C7_preload_batches Nat).2.2.2.1 entries100 5 (by decide)
      simpa using h,
    (@C7_preload_batches Nat).1 entries100 5⟩

theorem settleRun_first_error {evs1 evs2 : List (Option JSError)}
    {n completed : Nat} {e : JSError} (h1 : ∀ x ∈ evs1, x = none)
    (hlt : completed + evs1.length < n) :
    settleRun n (evs1 ++ some e :: evs2) completed = some (Except.error e) := by
  induction evs1 generalizing completed with
  | nil => rfl
  | cons x rest ih =>
    have hx : x = none := h1 x (List.mem_cons_self _ _)
    subst hx
    rw [List.cons_append]
    unfold settleRun
    simp only
    rw [if_neg (by simp only [List.length_cons] at hlt; omega)]
    apply ih
    · intro y hy
      exact h1 y (List.mem_cons_of_mem _ hy)
    · simp only [List.length_cons] at hlt
      omega

/-! ### Claim C10: settling of the storeBatch promise -/

/-- C10.  The batch-write promise of `storeBatch` (and of the
identically structured `DictionaryDB.setBatch`) resolves or rejects only
from inside the per-entry callbacks, so on the empty entry list no
callback ever runs and the promise never settles (conjunct 1); on any
non-empty list the promise settles (conjunct 2): it resolves once every
record has been written or skipped (conjunct 3), and it rejects with the
first `put` failure when one occurs (conjunct 4). -/
theorem C10_storeBatch_settling {V : Type} :
    (∀ (putErr : Nat → Option JSError),
      storeBatch ([] : List (BatchEntry V)) putErr = none) ∧
    (∀ (entries : List (BatchEntry V)) (putErr : Nat → Option JSError),
      entries ≠ [] → (storeBatch entries putErr).isSome) ∧
    (∀ (entries : List (BatchEntry V)) (putErr : Nat → Option JSError),
      entries ≠ [] → (∀ j, putErr j = none) →
      storeBatch entries putErr = some (Except.ok ())) ∧
    (∀ (entries : List (BatchEntry V)) (putErr : Nat → Option JSError)
        (j0 : Nat) (e : JSError),
      (∀ i, i < j0 → putErr i = none) → putErr j0 = some e →
      j0 < (entries.filter (fun x => !x.falsyWord)).length →
      storeBatch entries putErr = some (Except.error e)) := by
  have hsum : ∀ (entries : List (BatchEntry V)),
      (entries.filter (fun x => x.falsyWord)).length
        + (entries.filter (fun x => !x.falsyWord)).length = entries.length :=
    length_filter_add_length_filter_not
  refine ⟨fun _ => rfl, ?_, ?_, ?_⟩
  · intro entries putErr hne
    unfold storeBatch
    apply settleRun_isSome
    · simp only [List.length_append, List.length_replicate, List.length_map,
        List.length_range]
      rw [Nat.add_zero]
      exact hsum entries
    · intro hc
      have := congrArg List.length hc
      simp only [List.length_append, List.length_replicate, List.length_map,
        List.length_range, List.length_nil] at this
      rw [hsum entries] at this
      exact hne (List.eq_nil_of_length_eq_zero this)
  · intro entries putErr hne hok
    unfold storeBatch
    apply settleRun_all_none
    · intro x hx
      rcases List.mem_append.mp hx with h | h
      · exact List.eq_of_mem_replicate h
      · obtain ⟨j, _, rfl⟩ := List.mem_map.mp h
        exact hok j
    · simp only [List.length_append, List.length_replicate, List.length_map,
        List.length_range]
      rw [Nat.add_zero]
      exact hsum entries
    · intro hc
      have := congrArg List.length hc
      simp only [List.length_append, List.length_replicate, List.length_map,
        List.length_range, List.length_nil] at this
      rw [hsum entries] at this
      exact hne (List.eq_nil_of_length_eq_zero this)
  · intro entries putErr j0 e hbefore hj0 hlt
    unfold storeBatch
    dsimp only
    have hdecomp : List.range ((entries.filter (fun x => !x.falsyWord)).length)
        = List.range' 0 j0
          ++ j0 :: List.range' (j0 + 1)
            ((entries.filter (fun x => !x.falsyWord)).length - j0 - 1) := by
      rw [List.range_eq_range']
      rw [show (entries.filter (fun x => !x.falsyWord)).length
          = (((entries.filter (fun x => !x.falsyWord)).length - j0 - 1) + 1) + j0
        from by omega]
      rw [← List.range'_append_1 0 j0]
      rw [Nat.zero_add, List.range'_succ]
      congr 3
      omega
    rw [hdecomp]
    rw [List.map_append, List.map_cons, hj0]
    rw [← List.append_assoc]
    apply settleRun_first_error
    · intro x hx
      rcases List.mem_append.mp hx with h | h
      · exact List.eq_of_mem_replicate h
      · obtain ⟨j, hj, rfl⟩ := List.mem_map.mp h
        apply hbefore
        rcases List.mem_range'.mp hj with ⟨i, hi, rfl⟩
        omega
    · simp only [List.length_append, List.length_replicate, List.length_map,
        List.length_range']
      have := hsum entries
      omega

/-- C10 witness: a singleton batch with a skipped entry resolves, a
batch whose only `put` fails rejects with that error, and the non-empty
settling conjunct at a concrete batch. -/
theorem C10_storeBatch_settling_witness :
    storeBatch [(⟨some "cat", 1⟩ : BatchEntry Nat)] (fun _ => none)
      = some (Except.ok ()) ∧
    storeBatch [(⟨some "cat", 1⟩ : BatchEntry Nat)]
      (fun _ => some ⟨"QuotaExceededError", "quota"⟩)
      = some (Except.error ⟨"QuotaExceededError", "quota"⟩) ∧
    (storeBatch [(⟨none, 2⟩ : BatchEntry Nat)] (fun _ => none)).isSome :=
  ⟨(@C10_storeBatch_settling Nat).2.2.1 [⟨some "cat", 1⟩] (fun _ => none)
      (by decide) (fun _ => rfl),
    (@C10_storeBatch_settling Nat).2.2.2 [⟨some "cat", 1⟩]
      (fun _ => some ⟨"QuotaExceededError", "quota"⟩) 0
      ⟨"QuotaExceededError", "quota"⟩ (fun i hi => absurd hi (Nat.not_lt_zero i))
      rfl (by decide),
    (@C10_storeBatch_settling Nat).2.1 [⟨none, 2⟩] (fun _ => none) (by decide)⟩

end QuickDefine
